import Mathlib

set_option autoImplicit false

/-!
Shallow embedding of the incremental fetch / rate-limit / cache / match
pipeline of the `vdemeester/x` repository (packages `internal/pr`,
`internal/deps`, `internal/cache` and the `nixpkgs-pr-watch` command).

Go strings are modelled as `List Char`; Go `int` as `Int` (or `Nat` where
the source only ever holds non-negative counts); `time.Duration` as
integer nanoseconds; floating-point delay arithmetic as exact rationals.
Go `strings.ToLower` is modelled on the ASCII range, which covers every
string the matcher handles (package names, nixpkgs paths, PR titles).
Struct fields keep the source's exported names (`Matches`, `Score`, ...);
the Go field `Type` is rendered `type` because `Type` is reserved in Lean.
I/O (stderr logging, sleeping) does not influence any returned value; the
sleeps performed by the retry loop are recorded as observable data.
-/

namespace Spec2Proof

/-! ### Go string primitives (`strings` package), over `List Char` -/

/-- ASCII lowering of one character, the ASCII fragment of Go
`strings.ToLower`. -/
def goToLowerChar (c : Char) : Char :=
  if 'A' ≤ c ∧ c ≤ 'Z' then Char.ofNat (c.toNat + 32) else c

/-- ASCII fragment of Go `strings.ToLower`. -/
def goToLower (s : List Char) : List Char := s.map goToLowerChar

/-- `goPrefix pre s` : `pre` is a prefix of `s` (Go `strings.HasPrefix`). -/
def goPrefix : List Char → List Char → Bool
  | [], _ => true
  | _ :: _, [] => false
  | a :: as, b :: bs => a == b && goPrefix as bs

/-- `goContains hay sub` : `sub` occurs as a contiguous substring of `hay`
(Go `strings.Contains`). -/
def goContains : List Char → List Char → Bool
  | [], sub => goPrefix sub []
  | h :: t, sub => goPrefix sub (h :: t) || goContains t sub

/-- `goSuffix suf s` : `suf` is a suffix of `s` (Go `strings.HasSuffix`). -/
def goSuffix (suf s : List Char) : Bool := goPrefix suf.reverse s.reverse

/-! ### Data model (`internal/pr/types.go`, `internal/deps/deps.go`) -/

/-- A file changed in a PR (`pr.File`). -/
structure File where
  Path : List Char
  Additions : Int
  Deletions : Int
  deriving DecidableEq, Repr

/-- A GitHub pull request (`pr.PullRequest`). Timestamps are modelled as
integer nanoseconds since the epoch. -/
structure PullRequest where
  Number : Int
  Title : List Char
  URL : List Char
  Author : List Char
  BaseRef : List Char
  Mergeable : List Char
  StatusState : List Char
  Labels : List (List Char)
  Files : List File
  CreatedAt : Int
  UpdatedAt : Int
  deriving DecidableEq, Repr

/-- A single match between a PR and a dependency (`pr.Match`). -/
structure Match where
  type : List Char
  Dependency : List Char
  FilePath : List Char
  Confidence : List Char
  deriving DecidableEq, Repr

/-- The result of matching one PR against the dependency set
(`pr.MatchResult`). -/
structure MatchResult where
  PR : PullRequest
  Score : Int
  Matches : List Match
  TotalMatches : Int
  deriving DecidableEq, Repr

/-- A package dependency (`deps.Package`). -/
structure Package where
  Name : List Char
  Attribute : List Char
  deriving DecidableEq, Repr

/-- A NixOS or home-manager module (`deps.ModulePath`). -/
structure ModulePath where
  Path : List Char
  type : List Char
  deriving DecidableEq, Repr

/-- The extracted dependency set (`deps.Dependencies`). -/
structure Dependencies where
  Packages : List Package
  Modules : List ModulePath
  Services : List (List Char)
  deriving DecidableEq, Repr

/-- `deps.Dependencies.HasPackage`: case-insensitive package-name lookup. -/
def hasPackage (d : Dependencies) (name : List Char) : Bool :=
  let nameL := goToLower name
  d.Packages.any fun p => goToLower p.Name == nameL

/-- `deps.Dependencies.HasModulePath`: exact module-path lookup. -/
def hasModulePath (d : Dependencies) (path : List Char) : Bool :=
  d.Modules.any fun m => m.Path == path

/-! ### Matcher (`internal/pr/matcher.go`)

The three package-path regular expressions compiled in `NewMatcher` are
embedded as string scanners with RE2 leftmost / greedy semantics:

* `pkgs/by-name/[^/]+/([^/]+)/` — leftmost occurrence of the literal
  `pkgs/by-name/` followed by two non-empty slash-free segments, each
  terminated by `/`; the capture is the second segment.
* `pkgs/.*/([^/]+)/default\.nix$` — the subject ends with `/default.nix`;
  the greedy `.*` makes the capture the last slash-free segment before
  that suffix, and the literal `pkgs/` must occur somewhere before the
  `/` that precedes the capture.
* the same shape with `package\.nix`.

RE2's `.` does not match a newline; the embedding lets it match any
character, which agrees on every newline-free subject (file paths).
-/

/-- Consume a maximal non-empty run of non-`/` characters followed by `/`
(the shape `[^/]+/`), returning the run and the rest after the slash. -/
def scanSeg (cs : List Char) : Option (List Char × List Char) :=
  let seg := cs.takeWhile (· ≠ '/')
  match seg, cs.dropWhile (· ≠ '/') with
  | [], _ => none
  | _, [] => none
  | s, _ :: r => some (s, r)

/-- After the literal `pkgs/by-name/`, parse `[^/]+/([^/]+)/` and return
the capture. -/
def byNameCapture (cs : List Char) : Option (List Char) := do
  let (_, r1) ← scanSeg cs
  let (s2, _) ← scanSeg r1
  pure s2

/-- Leftmost match of `pkgs/by-name/[^/]+/([^/]+)/`, returning the capture. -/
def findByName : List Char → Option (List Char)
  | [] => none
  | c :: rest =>
    match
      (if goPrefix "pkgs/by-name/".data (c :: rest) then
        byNameCapture ((c :: rest).drop "pkgs/by-name/".data.length)
      else none) with
    | some cap => some cap
    | none => findByName rest

/-- Split off the last slash-free segment: `t = before ++ '/' :: seg` with
`seg` slash-free; `none` when `t` has no slash. -/
def splitLastSlash (t : List Char) : Option (List Char × List Char) :=
  let rev := t.reverse
  match rev.dropWhile (· ≠ '/') with
  | [] => none
  | _ :: before => some (before.reverse, (rev.takeWhile (· ≠ '/')).reverse)

/-- Capture of `pkgs/.*/([^/]+)/<endLit>$` (with `endLit` one of
`default.nix`, `package.nix`): the subject must end with `/<endLit>`, the
capture is the last slash-free segment before that suffix, and `pkgs/`
must occur inside the part before the capture's leading slash. -/
def tailCapture (endLit : List Char) (s : List Char) : Option (List Char) :=
  let suffix := '/' :: endLit
  if goSuffix suffix s then
    match splitLastSlash (s.take (s.length - suffix.length)) with
    | none => none
    | some (before, seg) =>
      if seg ≠ [] ∧ goContains before "pkgs/".data then some seg else none
  else none

/-- `Matcher.extractPackageName`: first pattern to produce a capture wins;
`[]` (Go `""`) when none matches. -/
def extractPackageName (path : List Char) : List Char :=
  match findByName path with
  | some cap => cap
  | none =>
    match tailCapture "default.nix".data path with
    | some cap => cap
    | none =>
      match tailCapture "package.nix".data path with
      | some cap => cap
      | none => []

/-- The module-path pattern `^(nixos|home-manager)/modules/`. -/
def moduleMatchString (path : List Char) : Bool :=
  goPrefix "nixos/modules/".data path || goPrefix "home-manager/modules/".data path

/-- `goSplit sep cs`: Go `strings.Split` on a one-character separator
(keeps empty fields, never returns an empty list). -/
def goSplit (sep : Char) : List Char → List (List Char)
  | [] => [[]]
  | c :: rest =>
    if c = sep then [] :: goSplit sep rest
    else
      match goSplit sep rest with
      | [] => [[c]]
      | g :: gs => (c :: g) :: gs

/-- `extractServiceName`: last `/`-separated component of a module path. -/
def extractServiceName (modulePath : List Char) : List Char :=
  (goSplit '/' modulePath).getLastD []

/-! #### Word matching (`isExactWordMatch`, `matchesWithWordBoundary`) -/

/-- A character kept by the `strings.FieldsFunc` tokenizer in
`isExactWordMatch`: lowercase letter, digit, hyphen or underscore. -/
def isTokenChar (c : Char) : Bool :=
  ('a' ≤ c && c ≤ 'z') || ('0' ≤ c && c ≤ '9') || c == '-' || c == '_'

/-- `strings.FieldsFunc` with separator predicate `¬ p`: maximal runs of
characters satisfying `p`, empties dropped. `cur` is the (reversed)
run accumulated so far. -/
def goFieldsAux (p : Char → Bool) (cur : List Char) : List Char → List (List Char)
  | [] => if cur = [] then [] else [cur.reverse]
  | c :: rest =>
    if p c then goFieldsAux p (c :: cur) rest
    else if cur = [] then goFieldsAux p [] rest
    else cur.reverse :: goFieldsAux p [] rest

/-- Tokens of `isExactWordMatch`. -/
def goFields (p : Char → Bool) (cs : List Char) : List (List Char) :=
  goFieldsAux p [] cs

/-- `Matcher.isExactWordMatch`: `pkg` appears as a complete token of
`text`. -/
def isExactWordMatch (text pkg : List Char) : Bool :=
  (goFields isTokenChar text).any (· == pkg)

/-- RE2 `\w`: ASCII letter, digit or underscore. -/
def isWordChar (c : Char) : Bool :=
  ('a' ≤ c && c ≤ 'z') || ('A' ≤ c && c ≤ 'Z') || ('0' ≤ c && c ≤ '9') || c == '_'

/-- Word-ness of an optional character; out of range counts as non-word. -/
def isWordOpt : Option Char → Bool
  | none => false
  | some c => isWordChar c

/-- RE2 `\b`: a word boundary lies between two characters of opposite
word-ness (string ends count as non-word). -/
def boundary (a b : Option Char) : Bool := isWordOpt a != isWordOpt b

/-- Case-insensitive (`(?i)`, ASCII) character equality. -/
def ciEqChar (a b : Char) : Bool := goToLowerChar a == goToLowerChar b

/-- Case-insensitive prefix test. -/
def ciPrefix : List Char → List Char → Bool
  | [], _ => true
  | _ :: _, [] => false
  | a :: as, b :: bs => ciEqChar a b && ciPrefix as bs

/-- One candidate position of `(?i)\b<pkg>\b`: `text` is the rest of the
subject from this position, `prev` the character just before it.  ASCII
case folding preserves word-ness, so the trailing boundary may test
`pkg`'s own last character. -/
def wbHere (pkg : List Char) (prev : Option Char) (text : List Char) : Bool :=
  boundary prev text.head? && ciPrefix pkg text &&
    boundary pkg.getLast? (text.drop pkg.length).head?

/-- Scan all positions of the subject for `(?i)\b<pkg>\b` (the compiled
pattern of `matchesWithWordBoundary`; callers always pass a non-empty
`pkg`, of length ≥ 3). -/
def wbScan (pkg : List Char) (prev : Option Char) : List Char → Bool
  | [] => false
  | c :: rest => wbHere pkg prev (c :: rest) || wbScan pkg (some c) rest

/-- `Matcher.matchesWithWordBoundary`: for hyphen-free `pkg`, a match is
suppressed when the text contains `pkg` immediately followed by `-`;
otherwise the word-boundary pattern decides. -/
def matchesWithWordBoundary (text pkg : List Char) : Bool :=
  if ¬ goContains pkg ['-'] then
    if goContains (goToLower text) (goToLower pkg ++ ['-']) then false
    else wbScan pkg none text
  else wbScan pkg none text

/-! #### Scoring and matching -/

/-- Points contributed by one match in `MatchResult.addMatch`'s `switch`
(no default case: any other confidence string contributes nothing). -/
def confidencePoints (confidence : List Char) : Int :=
  if confidence = "high".data then 100
  else if confidence = "medium".data then 50
  else if confidence = "low".data then 25
  else 0

/-- `MatchResult.addMatch`: append the match, refresh `TotalMatches`,
add the confidence points and cap the score at 100. -/
def addMatch (mr : MatchResult) (m : Match) : MatchResult :=
  let ms := mr.Matches ++ [m]
  let sc := mr.Score + confidencePoints m.Confidence
  { mr with
    Matches := ms
    TotalMatches := ms.length
    Score := if sc > 100 then 100 else sc }

/-- `MatchResult.hasMatch`: a dependency name already appears among the
matches. -/
def hasMatch (mr : MatchResult) (dependency : List Char) : Bool :=
  mr.Matches.any fun m => m.Dependency == dependency

/-- The fuzzy module scan of `matchPR` phase 1: find the first module
whose leaf service name occurs in the file path; the already-matched
check is against the module's full path (as in the source) while the
recorded dependency is the leaf name; scanning stops at the first hit. -/
def fuzzyModuleScan (r : MatchResult) (filePath : List Char) :
    List ModulePath → MatchResult
  | [] => r
  | mod :: rest =>
    let serviceName := extractServiceName mod.Path
    if serviceName ≠ [] ∧ goContains filePath serviceName then
      if ¬ hasMatch r mod.Path then
        addMatch r ⟨"module".data, serviceName, filePath, "high".data⟩
      else r
    else fuzzyModuleScan r filePath rest

/-- Phase 1 of `matchPR` for one changed file: package-path extraction
first, then module-path matching (exact, then fuzzy). -/
def phase1File (d : Dependencies) (r : MatchResult) (file : File) : MatchResult :=
  let pkgName := extractPackageName file.Path
  if pkgName ≠ [] ∧ hasPackage d pkgName then
    addMatch r ⟨"package".data, pkgName, file.Path, "high".data⟩
  else if moduleMatchString file.Path then
    if hasModulePath d file.Path then
      addMatch r ⟨"module".data, file.Path, file.Path, "high".data⟩
    else fuzzyModuleScan r file.Path d.Modules
  else r

/-- The per-package decision of `matchPR` phase 2: token-exact matching
for names of fewer than 3 characters, word-boundary matching otherwise. -/
def phase2Matched (titleLower : List Char) (name : List Char) : Bool :=
  let pkgLower := goToLower name
  if name.length < 3 then isExactWordMatch titleLower pkgLower
  else matchesWithWordBoundary titleLower pkgLower

/-- Phase 2 of `matchPR` for one known package: record a medium-confidence
title match unless the dependency is already matched. -/
def phase2Pkg (titleLower : List Char) (r : MatchResult) (pkg : Package) : MatchResult :=
  if phase2Matched titleLower pkg.Name then
    if ¬ hasMatch r pkg.Name then
      addMatch r ⟨"title".data, pkg.Name, [], "medium".data⟩
    else r
  else r

/-- `Matcher.matchPR`: file-path scan, then title scan, over a fresh
zero-score result. -/
def matchPR (d : Dependencies) (pr : PullRequest) : MatchResult :=
  let r0 : MatchResult := ⟨pr, 0, [], 0⟩
  let r1 := pr.Files.foldl (phase1File d) r0
  let titleLower := goToLower pr.Title
  d.Packages.foldl (phase2Pkg titleLower) r1

/-- `Matcher.MatchAll`: keep, in order, the per-PR results that have at
least one match. -/
def matchAll (d : Dependencies) (prs : List PullRequest) : List MatchResult :=
  prs.foldl
    (fun results pr =>
      let result := matchPR d pr
      if result.Matches.length > 0 then results ++ [result] else results)
    []

/-- `MatchResult.HighestConfidence`'s loop: return `high` at the first
high-confidence match, remember `medium`, default to `low`. -/
def highestConfidenceLoop (highest : List Char) : List Match → List Char
  | [] => highest
  | m :: rest =>
    if m.Confidence = "high".data then "high".data
    else if m.Confidence = "medium".data ∧ highest = "low".data then
      highestConfidenceLoop "medium".data rest
    else highestConfidenceLoop highest rest

/-- `MatchResult.HighestConfidence`. -/
def highestConfidence (mr : MatchResult) : List Char :=
  highestConfidenceLoop "low".data mr.Matches

/-! ### Paginated fetcher (`internal/pr/fetcher.go`) -/

/-- Outcome of one remote batch call: records plus the next cursor, or a
Go error (modelled by its message string). -/
inductive BatchResult where
  | ok (prs : List PullRequest) (cursor : List Char)
  | err (e : List Char)
  deriving DecidableEq, Repr

/-- `isRetryableError`: transient errors are recognized by their message
containing `502`, `503`, `504`, `timeout` or `connection reset`. -/
def isRetryableError (e : List Char) : Bool :=
  goContains e "502".data || goContains e "503".data || goContains e "504".data ||
    goContains e "timeout".data || goContains e "connection reset".data

/-- The wrapped error built after retry exhaustion:
`fmt.Errorf("failed after %d attempts: %w", maxRetries, lastErr)`. -/
def wrapRetryErr (maxRetries : Nat) (lastErr : List Char) : List Char :=
  "failed after ".data ++ (Nat.repr maxRetries).data ++ " attempts: ".data ++ lastErr

/-- Observable outcome of `fetchPRBatchWithRetry`: the returned triple
plus the backoff sleeps performed (nanoseconds) and the number of
attempts actually made. -/
structure RetryOutcome where
  prs : List PullRequest
  cursor : List Char
  error : Option (List Char)
  sleeps : List Int
  attemptsMade : Nat
  deriving DecidableEq, Repr

/-- The retry loop of `fetchPRBatchWithRetry`.  `oracle` gives the result
of the wrapped `fetchPRBatch` call on each attempt (the call's arguments
are fixed across attempts and folded into the oracle).  A success
returns immediately; a non-retryable error aborts with `nil` records;
a retryable error sleeps `1<<(attempt-1)` seconds when further attempts
remain; exhaustion returns the wrapped last error. -/
def retryLoop (oracle : Nat → BatchResult) (maxRetries : Nat) (attempt : Nat)
    (lastErr : List Char) (sleeps : List Int) : RetryOutcome :=
  if attempt ≤ maxRetries then
    match oracle attempt with
    | .ok prs cursor => ⟨prs, cursor, none, sleeps, attempt⟩
    | .err e =>
      if ¬ isRetryableError e then ⟨[], [], some e, sleeps, attempt⟩
      else
        let sleeps' :=
          if attempt < maxRetries then sleeps ++ [(2 ^ (attempt - 1) : Int) * 1000000000]
          else sleeps
        retryLoop oracle maxRetries (attempt + 1) e sleeps'
  else ⟨[], [], some (wrapRetryErr maxRetries lastErr), sleeps, maxRetries⟩
termination_by maxRetries + 1 - attempt

/-- `fetchPRBatchWithRetry` (attempts start at 1, `lastErr` starts nil). -/
def fetchPRBatchWithRetry (oracle : Nat → BatchResult) (maxRetries : Nat) : RetryOutcome :=
  retryLoop oracle maxRetries 1 [] []

/-- The batching loop of `FetchNixpkgsPRsWithCursor`.  `env batchNum
batchSize cursor` is the outcome of `fetchPRBatchWithRetry` for the
`batchNum`-th batch.  Rate-limiter bookkeeping (`Wait`, `recordRequest`)
and stderr logging do not affect the returned data and are omitted.
On an error the records and cursor accumulated so far are returned with
the error; a short batch ends the loop (upstream exhausted). -/
def fetchLoop (env : Nat → Int → List Char → BatchResult) (batchNum : Nat)
    (acc : List PullRequest) (cursor : List Char) (remaining : Int) :
    List PullRequest × List Char × Option (List Char) :=
  if h : remaining > 0 then
    match env batchNum (if remaining > 100 then 100 else remaining) cursor with
    | .err e => (acc, cursor, some e)
    | .ok prs c =>
      if hlen : (prs.length : Int) < (if remaining > 100 then 100 else remaining) then
        (acc ++ prs, c, none)
      else fetchLoop env (batchNum + 1) (acc ++ prs) c (remaining - prs.length)
  else (acc, cursor, none)
termination_by remaining.toNat
decreasing_by
  simp only [not_lt] at hlen
  split at hlen <;> omega

/-- `Fetcher.FetchNixpkgsPRsWithCursor` (`maxPerRequest = 100`; batch
numbering starts at 1). -/
def fetchNixpkgsPRsWithCursor (env : Nat → Int → List Char → BatchResult)
    (limit : Int) (afterCursor : List Char) :
    List PullRequest × List Char × Option (List Char) :=
  fetchLoop env 1 [] afterCursor limit

/-! ### Rate limiter (the `RateLimiter` of `internal/pr`)

Durations are exact rationals (nanoseconds); `math.Pow` is modelled as
exact rational exponentiation. -/

/-- `RateLimiter` state (the mutex guards concurrency only). -/
structure RateLimiterState where
  baseDelay : ℚ
  backoffRate : ℚ
  maxDelay : ℚ
  requestCount : Nat
  deriving DecidableEq, Repr

/-- `NewRateLimiter`. -/
def newRateLimiter (baseDelay backoffRate maxDelay : ℚ) : RateLimiterState :=
  ⟨baseDelay, backoffRate, maxDelay, 0⟩

/-- `RateLimiter.recordRequest`. -/
def recordRequest (rl : RateLimiterState) : RateLimiterState :=
  { rl with requestCount := rl.requestCount + 1 }

/-- `recordRequest` iterated `k` times. -/
def recordRequests : Nat → RateLimiterState → RateLimiterState
  | 0, rl => rl
  | k + 1, rl => recordRequest (recordRequests k rl)

/-- `RateLimiter.shouldDelay`: no delay before the first request. -/
def shouldDelay (rl : RateLimiterState) : Bool := rl.requestCount > 0

/-- `RateLimiter.calculateDelay`:
`baseDelay * backoffRate^(requestCount-1)`, capped at `maxDelay`. -/
def calculateDelay (rl : RateLimiterState) : ℚ :=
  let delay := rl.baseDelay * rl.backoffRate ^ (rl.requestCount - 1)
  if delay > rl.maxDelay then rl.maxDelay else delay

/-- The delay `RateLimiter.Wait` sleeps for and returns. -/
def waitDelay (rl : RateLimiterState) : ℚ :=
  if shouldDelay rl then calculateDelay rl else 0

/-! ### TTL cache (`internal/cache`)

Modelled from the spec: the cache implementation itself is not among the
provided sources (only its test file is); §4.1 of the spec defines `Set`
and `Get`, and the entry-liveness invariant is `now - writtenAt < ttl`.
Time is in integer nanoseconds; one stored entry per key; `Get` of a
missing or expired key is a success that leaves the output at its zero
value (modelled as `none`) and removes an expired entry's storage. -/

/-- Modelled from the spec: a cache instance — a fixed TTL and one
`(payload, writtenAt)` entry per key. -/
structure CacheModel (V : Type) where
  ttl : Nat
  entries : List (List Char × V × Nat)

/-- Modelled from the spec: `Cache.Set` serializes the value with the
current timestamp and overwrites any prior entry for the key. -/
def cacheSet {V : Type} (c : CacheModel V) (key : List Char) (v : V) (now : Nat) :
    CacheModel V :=
  { c with entries := (key, v, now) :: c.entries.filter fun e => ¬ e.1 = key }

/-- Modelled from the spec: `Cache.Get` — a missing key is a non-error
miss; a live entry (`now - writtenAt < ttl`) is returned; an expired
entry is a non-error miss whose storage is deleted as a side effect. -/
def cacheGet {V : Type} (c : CacheModel V) (key : List Char) (now : Nat) :
    Option V × CacheModel V :=
  match c.entries.find? fun e => e.1 = key with
  | none => (none, c)
  | some (_, v, w) =>
    if now - w < c.ttl then (some v, c)
    else (none, { c with entries := c.entries.filter fun e => ¬ e.1 = key })

/-! ### Cache-assisted incremental resume (`cmd/nixpkgs-pr-watch/watch.go`)

The fetch-decision logic of `runWatch` (lines 129–200): given cached PRs
with their metadata, either serve the prefix from cache, fetch only the
delta from the saved cursor, or fetch from scratch.  The fetch calls
performed are returned as observable data `(requested, cursor)`. -/

/-- `prCacheMetadata` (the `FetchedAt` timestamp plays no role in the
fetch decision). -/
structure PRCacheMetadata where
  MaxLimit : Nat
  Cursor : List Char
  deriving DecidableEq, Repr

/-- The fetch decision of `runWatch`: `hasCachedPRs` and the cached data
come from the cache probe; `fetch delta cursor` stands for
`FetchNixpkgsPRsWithCursor(delta, cursor, baseBranch)`.  Returns the PR
list used downstream and the list of remote calls made. -/
def runWatchFetch (hasCachedPRs : Bool) (cachedPRs : List PullRequest)
    (metadata : PRCacheMetadata) (limit : Nat)
    (fetch : Nat → List Char → List PullRequest × List Char × Option (List Char)) :
    List PullRequest × List (Nat × List Char) :=
  if hasCachedPRs ∧ metadata.MaxLimit ≥ limit then
    (cachedPRs.take limit, [])
  else if hasCachedPRs ∧ metadata.MaxLimit < limit then
    let deltaNeeded := limit - metadata.MaxLimit
    let (newPRs, _, _) := fetch deltaNeeded metadata.Cursor
    (cachedPRs ++ newPRs, [(deltaNeeded, metadata.Cursor)])
  else
    let (prs, _, _) := fetch limit []
    (prs, [(limit, [])])

/-! ### Concrete inputs used in witnesses and counterexamples -/

/-- A pull request with every field at its zero value. -/
def emptyPR : PullRequest := ⟨0, [], [], [], [], [], [], [], [], 0, 0⟩

/-- A pull request that only carries a title. -/
def titlePR (t : List Char) : PullRequest := ⟨0, t, [], [], [], [], [], [], [], 0, 0⟩

/-- A pull request that only carries changed-file paths. -/
def filesPR (paths : List (List Char)) : PullRequest :=
  ⟨0, [], [], [], [], [], [], [], paths.map fun p => ⟨p, 0, 0⟩, 0, 0⟩

/-- A dependency set holding exactly the given package names. -/
def pkgDeps (names : List (List Char)) : Dependencies :=
  ⟨names.map fun n => ⟨n, []⟩, [], []⟩

/-- A PR touching two files inside the same `by-name` package directory. -/
def twoGitFilesPR : PullRequest :=
  filesPR ["pkgs/by-name/gi/git/package.nix".data, "pkgs/by-name/gi/git/update.sh".data]

/-- The rate-limiter configuration built by `NewFetcher`: 100 ms base
delay, 1.5 backoff rate, 5 s cap (durations in nanoseconds). -/
def fetcherRateLimiter : RateLimiterState :=
  newRateLimiter 100000000 (3 / 2) 5000000000

/-- A two-batch environment for exercising partial failure: batch 1
succeeds with 100 records and cursor `c1`, every later batch fails. -/
def partialFailEnv : Nat → Int → List Char → BatchResult := fun batchNum _ _ =>
  if batchNum = 1 then .ok (List.replicate 100 emptyPR) "c1".data
  else .err "gateway 502".data

/-- The cursor sequence of `partialFailEnv`. -/
def partialFailCursors : Nat → List Char := fun i =>
  if i = 0 then "c0".data else "c1".data

/-! ### The relation of the amended deduplication invariant

`dedupWithTitles a b` holds when, of the two matches, any one that is a
title match has a dependency name different from the other's. -/

def dedupWithTitles (a b : Match) : Prop :=
  (a.type = "title".data → a.Dependency ≠ b.Dependency) ∧
    (b.type = "title".data → a.Dependency ≠ b.Dependency)

/-! ### Spec-side characterisation of the word-boundary pattern

`wordBoundaryMatch text pkg` states, as the spec phrases it, that `text`
contains an occurrence of `pkg` (up to ASCII case) delimited on both
sides by a word boundary in the RE2 sense. -/

def wordBoundaryMatch (text pkg : List Char) : Prop :=
  ∃ pre mid post : List Char,
    text = pre ++ mid ++ post ∧
    mid.map goToLowerChar = pkg.map goToLowerChar ∧
    isWordOpt pre.getLast? ≠ isWordOpt mid.head? ∧
    isWordOpt mid.getLast? ≠ isWordOpt post.head?

/-! ## Theorems -/

/-! ### Generic helper lemmas -/

theorem addMatch_Matches (r : MatchResult) (m : Match) :
    (addMatch r m).Matches = r.Matches ++ [m] := rfl

theorem addMatch_PR (r : MatchResult) (m : Match) : (addMatch r m).PR = r.PR := rfl

theorem fuzzyModuleScan_PR (path : List Char) :
    ∀ (mods : List ModulePath) (r : MatchResult),
      (fuzzyModuleScan r path mods).PR = r.PR := by
  intro mods
  induction mods with
  | nil => intro r; rfl
  | cons mod rest ih =>
    intro r
    simp only [fuzzyModuleScan]
    split
    · split <;> rfl
    · exact ih r

theorem phase1File_PR (d : Dependencies) (r : MatchResult) (f : File) :
    (phase1File d r f).PR = r.PR := by
  simp only [phase1File]
  split
  · rfl
  · split
    · split
      · rfl
      · exact fuzzyModuleScan_PR _ _ _
    · rfl

theorem phase2Pkg_PR (titleLower : List Char) (r : MatchResult) (pkg : Package) :
    (phase2Pkg titleLower r pkg).PR = r.PR := by
  simp only [phase2Pkg]
  split
  · split <;> rfl
  · rfl

theorem foldl_preserves_PR {α : Type} (f : MatchResult → α → MatchResult)
    (hf : ∀ r x, (f r x).PR = r.PR) :
    ∀ (l : List α) (r : MatchResult), (l.foldl f r).PR = r.PR := by
  intro l
  induction l with
  | nil => intro r; rfl
  | cons x xs ih => intro r; rw [List.foldl_cons, ih, hf]

theorem matchPR_PR (d : Dependencies) (pr : PullRequest) : (matchPR d pr).PR = pr := by
  unfold matchPR
  rw [foldl_preserves_PR _ (phase2Pkg_PR _), foldl_preserves_PR _ (phase1File_PR d)]

/-! ### C8: MatchAll filtering -/

theorem matchAll_foldl (d : Dependencies) :
    ∀ (prs : List PullRequest) (acc : List MatchResult),
      prs.foldl
          (fun results pr =>
            let result := matchPR d pr
            if result.Matches.length > 0 then results ++ [result] else results)
          acc =
        acc ++ (prs.map (matchPR d)).filter (fun r => r.Matches.length > 0) := by
  intro prs
  induction prs with
  | nil => intro acc; simp
  | cons pr rest ih =>
    intro acc
    rw [List.foldl_cons, ih, List.map_cons, List.filter_cons]
    by_cases h : (matchPR d pr).Matches.length > 0
    · simp [h]
    · simp [h]

/-- C8: `MatchAll` returns exactly the sub-list, in original order, of
per-record results with at least one match, while `matchPR` itself
always produces a result for its record (possibly with an empty match
list) — filtering happens only at the batch level. -/
theorem matchAll_filters_empty (d : Dependencies) (prs : List PullRequest) :
    matchAll d prs = (prs.map (matchPR d)).filter (fun r => r.Matches.length > 0) ∧
      ∀ pr ∈ prs, (matchPR d pr).PR = pr := by
  constructor
  · unfold matchAll
    rw [matchAll_foldl]
    simp
  · intro pr _
    exact matchPR_PR d pr

/-! ### C10: HighestConfidence -/

theorem highestConfidenceLoop_medium (ms : List Match) :
    highestConfidenceLoop "medium".data ms =
      (if ms.any (fun m => m.Confidence == "high".data) then "high".data
       else "medium".data) := by
  induction ms with
  | nil => rfl
  | cons m rest ih =>
    simp only [highestConfidenceLoop, List.any_cons]
    by_cases h : m.Confidence = "high".data
    · simp [h]
    · have : ¬ ("medium".data = "low".data) := by decide
      simp [h, this, ih]

theorem highestConfidenceLoop_low (ms : List Match) :
    highestConfidenceLoop "low".data ms =
      (if ms.any (fun m => m.Confidence == "high".data) then "high".data
       else if ms.any (fun m => m.Confidence == "medium".data) then "medium".data
       else "low".data) := by
  induction ms with
  | nil => rfl
  | cons m rest ih =>
    by_cases h : m.Confidence = "high".data
    · simp [highestConfidenceLoop, h, List.any_cons]
    · by_cases hm : m.Confidence = "medium".data
      · have step :
            highestConfidenceLoop "low".data (m :: rest) =
              highestConfidenceLoop "medium".data rest := by
          simp only [highestConfidenceLoop]
          rw [if_neg h, if_pos ⟨hm, trivial⟩]
        have hbh : (m.Confidence == "high".data) = false := by simp [h]
        have hbm : (m.Confidence == "medium".data) = true := by simp [hm]
        rw [step, highestConfidenceLoop_medium, List.any_cons, List.any_cons, hbh, hbm]
        simp
      · have step :
            highestConfidenceLoop "low".data (m :: rest) =
              highestConfidenceLoop "low".data rest := by
          simp only [highestConfidenceLoop]
          rw [if_neg h, if_neg (fun hc => hm hc.1)]
        have hbh : (m.Confidence == "high".data) = false := by simp [h]
        have hbm : (m.Confidence == "medium".data) = false := by simp [hm]
        rw [step, ih, List.any_cons, List.any_cons, hbh, hbm]
        simp

/-- C10: `HighestConfidence` returns `high` when some match is
high-confidence, else `medium` when some match is medium-confidence,
else `low`; in particular an empty match list yields `low`, the same
answer as a list of only low-confidence matches. -/
theorem highestConfidence_spec (mr : MatchResult) :
    highestConfidence mr =
        (if mr.Matches.any (fun m => m.Confidence == "high".data) then "high".data
         else if mr.Matches.any (fun m => m.Confidence == "medium".data) then "medium".data
         else "low".data) ∧
      (mr.Matches = [] → highestConfidence mr = "low".data) ∧
      ((∀ m ∈ mr.Matches, m.Confidence = "low".data) →
        highestConfidence mr = "low".data) := by
  refine ⟨highestConfidenceLoop_low mr.Matches, ?_, ?_⟩
  · intro h
    unfold highestConfidence
    rw [h]
    rfl
  · intro h
    rw [highestConfidence, highestConfidenceLoop_low]
    have h1 : mr.Matches.any (fun m => m.Confidence == "high".data) = false := by
      simp only [List.any_eq_false]
      intro m hm
      rw [h m hm]
      decide
    have h2 : mr.Matches.any (fun m => m.Confidence == "medium".data) = false := by
      simp only [List.any_eq_false]
      intro m hm
      rw [h m hm]
      decide
    simp [h1, h2]

/-- Witness for C10 at concrete inputs. -/
theorem highestConfidence_spec_witness :
    highestConfidence ⟨emptyPR, 0, [], 0⟩ = "low".data ∧
      highestConfidence ⟨emptyPR, 25, [⟨"t".data, "d".data, [], "low".data⟩], 1⟩ =
        "low".data := by
  constructor
  · exact (highestConfidence_spec ⟨emptyPR, 0, [], 0⟩).2.1 rfl
  · exact (highestConfidence_spec _).2.2 (by decide)

/-! ### C6: addMatch scoring -/

theorem confidencePoints_nonneg (c : List Char) : 0 ≤ confidencePoints c := by
  unfold confidencePoints
  split <;> try omega

theorem addMatch_Score (mr : MatchResult) (m : Match) :
    (addMatch mr m).Score = min (mr.Score + confidencePoints m.Confidence) 100 := by
  simp only [addMatch]
  omega

/-- C6: appending a match adds exactly 100 / 50 / 25 points for a
high / medium / low confidence match and then clamps the score at 100;
from any reachable score (≤ 100) the score is non-decreasing under
appends and never exceeds 100; one high plus one medium match from a
fresh result scores 100, a single medium match scores 50. -/
theorem addMatch_scoring :
    (∀ (mr : MatchResult) (m : Match),
        (m.Confidence = "high".data → (addMatch mr m).Score = min (mr.Score + 100) 100) ∧
        (m.Confidence = "medium".data → (addMatch mr m).Score = min (mr.Score + 50) 100) ∧
        (m.Confidence = "low".data → (addMatch mr m).Score = min (mr.Score + 25) 100)) ∧
      (∀ (mr : MatchResult) (m : Match), mr.Score ≤ 100 →
        mr.Score ≤ (addMatch mr m).Score ∧ (addMatch mr m).Score ≤ 100) ∧
      (addMatch (addMatch ⟨emptyPR, 0, [], 0⟩ ⟨"package".data, "git".data, [], "high".data⟩)
          ⟨"title".data, "oc".data, [], "medium".data⟩).Score = 100 ∧
      (addMatch ⟨emptyPR, 0, [], 0⟩ ⟨"title".data, "oc".data, [], "medium".data⟩).Score = 50 := by
  refine ⟨?_, ?_, by decide, by decide⟩
  · intro mr m
    refine ⟨fun h => ?_, fun h => ?_, fun h => ?_⟩ <;>
      rw [addMatch_Score, h] <;> try rfl
  · intro mr m hle
    rw [addMatch_Score]
    have := confidencePoints_nonneg m.Confidence
    omega

/-- Witness for C6 at concrete inputs. -/
theorem addMatch_scoring_witness :
    (addMatch ⟨emptyPR, 0, [], 0⟩ ⟨"t".data, "d".data, [], "high".data⟩).Score =
        min (0 + 100) 100 ∧
      (0 : Int) ≤ (addMatch ⟨emptyPR, 0, [], 0⟩ ⟨"t".data, "d".data, [], "high".data⟩).Score ∧
      (addMatch ⟨emptyPR, 0, [], 0⟩ ⟨"t".data, "d".data, [], "high".data⟩).Score ≤ 100 := by
  refine ⟨(addMatch_scoring.1 ⟨emptyPR, 0, [], 0⟩ _).1 rfl, ?_⟩
  exact addMatch_scoring.2.1 ⟨emptyPR, 0, [], 0⟩ ⟨"t".data, "d".data, [], "high".data⟩
    (by decide)

/-! ### C3: rate limiter delay -/

theorem recordRequests_requestCount (k : Nat) (rl : RateLimiterState) :
    recordRequests k rl =
      { rl with requestCount := rl.requestCount + k } := by
  induction k with
  | zero => rfl
  | succ n ih =>
    simp only [recordRequests, ih, recordRequest]
    rw [Nat.add_assoc]

theorem waitDelay_eq (b r m : ℚ) (k : Nat) (hk : 1 ≤ k) :
    waitDelay ⟨b, r, m, k⟩ = min (b * r ^ (k - 1)) m := by
  unfold waitDelay shouldDelay calculateDelay
  rw [if_pos (by simp; omega)]
  rcases le_or_lt (b * r ^ (k - 1)) m with hle | hlt
  · simp only
    rw [if_neg (not_lt.mpr hle), min_eq_left hle]
  · simp only
    rw [if_pos hlt, min_eq_right hlt.le]

/-- C3: after `k ≥ 1` recorded requests `Wait` sleeps for (and reports)
`min (baseDelay * backoffRate^(k-1)) maxDelay`, and sleeps 0 before any
request is recorded; for the `NewFetcher` parameters (100 ms, 1.5, 5 s)
the delays are 0, 100 ms and 150 ms before the 1st, 2nd and 3rd request,
and exactly the 5 s cap for every count from 11 on. -/
theorem rateLimiter_wait_delay :
    (∀ (b r m : ℚ) (k : Nat), 1 ≤ k →
        waitDelay (recordRequests k (newRateLimiter b r m)) =
          min (b * r ^ (k - 1)) m) ∧
      (∀ b r m : ℚ, waitDelay (newRateLimiter b r m) = 0) ∧
      waitDelay fetcherRateLimiter = 0 ∧
      waitDelay (recordRequests 1 fetcherRateLimiter) = 100000000 ∧
      waitDelay (recordRequests 2 fetcherRateLimiter) = 150000000 ∧
      (∀ k : Nat, 11 ≤ k →
        waitDelay (recordRequests k fetcherRateLimiter) = 5000000000) := by
  have hgen : ∀ (b r m : ℚ) (k : Nat), 1 ≤ k →
      waitDelay (recordRequests k (newRateLimiter b r m)) = min (b * r ^ (k - 1)) m := by
    intro b r m k hk
    rw [recordRequests_requestCount]
    show waitDelay ⟨b, r, m, 0 + k⟩ = _
    rw [Nat.zero_add]
    exact waitDelay_eq b r m k hk
  refine ⟨hgen, fun b r m => rfl, rfl, ?_, ?_, ?_⟩
  · show waitDelay (recordRequests 1 (newRateLimiter 100000000 (3 / 2) 5000000000)) = _
    rw [hgen 100000000 (3 / 2) 5000000000 1 le_rfl]
    norm_num
  · show waitDelay (recordRequests 2 (newRateLimiter 100000000 (3 / 2) 5000000000)) = _
    rw [hgen 100000000 (3 / 2) 5000000000 2 (by omega)]
    norm_num
  · intro k hk
    show waitDelay (recordRequests k (newRateLimiter 100000000 (3 / 2) 5000000000)) = _
    rw [hgen 100000000 (3 / 2) 5000000000 k (by omega)]
    have hmono : ((3 : ℚ) / 2) ^ 10 ≤ (3 / 2 : ℚ) ^ (k - 1) := by
      apply pow_le_pow_right₀ (by norm_num)
      omega
    have hcap : (5000000000 : ℚ) ≤ 100000000 * (3 / 2 : ℚ) ^ (k - 1) := by
      calc (5000000000 : ℚ) ≤ 100000000 * (3 / 2 : ℚ) ^ 10 := by norm_num
        _ ≤ 100000000 * (3 / 2 : ℚ) ^ (k - 1) := by
            apply mul_le_mul_of_nonneg_left hmono
            norm_num
    exact min_eq_right hcap

/-- Witness for C3 at a concrete request count. -/
theorem rateLimiter_wait_delay_witness :
    waitDelay (recordRequests 3 fetcherRateLimiter) =
        min ((100000000 : ℚ) * (3 / 2) ^ (3 - 1)) 5000000000 ∧
      waitDelay (recordRequests 11 fetcherRateLimiter) = 5000000000 := by
  constructor
  · exact rateLimiter_wait_delay.1 100000000 (3 / 2) 5000000000 3 (by norm_num)
  · exact rateLimiter_wait_delay.2.2.2.2.2 11 (by norm_num)

/-! ### C9: cache TTL semantics -/

theorem find?_filter_ne {V : Type} (key : List Char) :
    ∀ l : List (List Char × V × Nat),
      ((l.filter fun e => ¬ e.1 = key).find? fun e => e.1 = key) = none := by
  intro l
  rw [List.find?_eq_none]
  intro e he
  have := List.of_mem_filter he
  simpa using this

/-- C9: after writing value `v` at time `w` into a cache with TTL `t`, a
`Get` at any time before `w + t` returns the stored value; a `Get` at or
after `w + t` is a non-error miss and removes the entry's storage; a
`Get` for a never-written key is a non-error miss that leaves the cache
unchanged. -/
theorem cache_ttl_expiration {V : Type} (c : CacheModel V) (key : List Char) (v : V)
    (w : Nat) :
    (∀ now, w ≤ now → now < w + c.ttl →
        (cacheGet (cacheSet c key v w) key now).1 = some v) ∧
      (∀ now, w + c.ttl ≤ now →
        (cacheGet (cacheSet c key v w) key now).1 = none ∧
          (((cacheGet (cacheSet c key v w) key now).2.entries.find? fun e => e.1 = key) =
            none)) ∧
      (∀ now, (c.entries.find? fun e => e.1 = key) = none →
        cacheGet c key now = (none, c)) := by
  have hfind :
      ((cacheSet c key v w).entries.find? fun e => e.1 = key) = some (key, v, w) := by
    simp [cacheSet, List.find?_cons]
  refine ⟨?_, ?_, ?_⟩
  · intro now h1 h2
    unfold cacheGet
    rw [hfind]
    have hlive : now - w < (cacheSet c key v w).ttl := by
      simp only [cacheSet]
      omega
    simp [hlive]
  · intro now h1
    unfold cacheGet
    rw [hfind]
    have hdead : ¬ (now - w < (cacheSet c key v w).ttl) := by
      simp only [cacheSet]
      omega
    refine ⟨by simp [hdead], ?_⟩
    simp only [hdead, if_false, if_neg hdead]
    exact find?_filter_ne key _
  · intro now hmiss
    unfold cacheGet
    rw [hmiss]

/-- Witness for C9 at concrete times. -/
theorem cache_ttl_expiration_witness :
    (cacheGet (cacheSet (⟨10, []⟩ : CacheModel Nat) "k".data 7 100) "k".data 105).1 =
        some 7 ∧
      (cacheGet (cacheSet (⟨10, []⟩ : CacheModel Nat) "k".data 7 100) "k".data 110).1 =
        none := by
  constructor
  · exact (cache_ttl_expiration (⟨10, []⟩ : CacheModel Nat) "k".data 7 100).1 105
      (by norm_num) (by norm_num)
  · exact ((cache_ttl_expiration (⟨10, []⟩ : CacheModel Nat) "k".data 7 100).2.1 110
      (by norm_num)).1

/-! ### C4: cache-assisted incremental resume -/

/-- C4: with cached PRs whose metadata records their count, a request for
`limit ≤ len(cached)` is served from cache with no remote call, and a
request for `limit > len(cached)` performs exactly one remote call for
the delta `limit - len(cached)` starting at the saved cursor, returning
the cached records followed by the newly fetched ones; the delta is
strictly smaller than `limit` (never a full re-fetch). -/
theorem runWatch_incremental_resume (cachedPRs : List PullRequest)
    (metadata : PRCacheMetadata) (limit : Nat)
    (fetch : Nat → List Char → List PullRequest × List Char × Option (List Char))
    (hinv : metadata.MaxLimit = cachedPRs.length) (hne : cachedPRs ≠ []) :
    (limit ≤ cachedPRs.length →
        runWatchFetch true cachedPRs metadata limit fetch = (cachedPRs.take limit, [])) ∧
      (cachedPRs.length < limit →
        runWatchFetch true cachedPRs metadata limit fetch =
            (cachedPRs ++ (fetch (limit - cachedPRs.length) metadata.Cursor).1,
              [(limit - cachedPRs.length, metadata.Cursor)]) ∧
          limit - cachedPRs.length < limit) := by
  constructor
  · intro hle
    unfold runWatchFetch
    rw [if_pos ⟨rfl, by omega⟩]
  · intro hlt
    have hlen : 0 < cachedPRs.length := List.length_pos.mpr hne
    refine ⟨?_, by omega⟩
    unfold runWatchFetch
    rw [if_neg (by simp; omega), if_pos ⟨rfl, by omega⟩, hinv]

/-- Witness for C4 at concrete inputs. -/
theorem runWatch_incremental_resume_witness :
    runWatchFetch true [emptyPR, emptyPR] ⟨2, "cur".data⟩ 1
          (fun _ _ => ([], [], none)) = ([emptyPR], []) ∧
      runWatchFetch true [emptyPR, emptyPR] ⟨2, "cur".data⟩ 5
          (fun _ _ => ([titlePR "x".data], [], none)) =
        ([emptyPR, emptyPR, titlePR "x".data], [(3, "cur".data)]) := by
  constructor
  · have h := (runWatch_incremental_resume [emptyPR, emptyPR] ⟨2, "cur".data⟩ 1
      (fun _ _ => ([], [], none)) rfl (by decide)).1 (by decide)
    simpa using h
  · have h := ((runWatch_incremental_resume [emptyPR, emptyPR] ⟨2, "cur".data⟩ 5
      (fun _ _ => ([titlePR "x".data], [], none)) rfl (by decide)).2 (by decide)).1
    simpa using h

/-! ### C5: retry policy for batch errors -/

/-- C5: a transient error (message containing `502`, `503`, `504`,
`timeout` or `connection reset`) is retried in place: when all 3
attempts fail transiently the loop makes exactly 3 attempts, sleeps the
exponential-backoff schedule `1<<(attempt-1)` seconds (so 1 s then 2 s)
between attempts, and only then propagates the last error (wrapped); a
terminal error aborts on the attempt where it occurs, with no further
attempts or sleeps after it. -/
theorem retry_policy (oracle : Nat → BatchResult) :
    (∀ e1 e2 e3 : List Char,
        oracle 1 = .err e1 → oracle 2 = .err e2 → oracle 3 = .err e3 →
        isRetryableError e1 = true → isRetryableError e2 = true →
        isRetryableError e3 = true →
        fetchPRBatchWithRetry oracle 3 =
          ⟨[], [], some (wrapRetryErr 3 e3), [1000000000, 2000000000], 3⟩) ∧
      (∀ (k : Nat) (e : List Char), 1 ≤ k → k ≤ 3 →
        (∀ i, 1 ≤ i → i < k → ∃ ei, oracle i = .err ei ∧ isRetryableError ei = true) →
        oracle k = .err e → isRetryableError e = false →
        fetchPRBatchWithRetry oracle 3 =
          ⟨[], [], some e,
            (List.range (k - 1)).map fun i => (2 ^ i : Int) * 1000000000, k⟩) ∧
      (∀ (maxRetries attempt : Nat) (lastErr e : List Char) (sleeps : List Int),
        attempt < maxRetries →
        oracle attempt = .err e → isRetryableError e = true →
        retryLoop oracle maxRetries attempt lastErr sleeps =
          retryLoop oracle maxRetries (attempt + 1) e
            (sleeps ++ [(2 ^ (attempt - 1) : Int) * 1000000000])) := by
  have hstep : ∀ (maxRetries attempt : Nat) (lastErr e : List Char) (sleeps : List Int),
      attempt < maxRetries →
      oracle attempt = .err e → isRetryableError e = true →
      retryLoop oracle maxRetries attempt lastErr sleeps =
        retryLoop oracle maxRetries (attempt + 1) e
          (sleeps ++ [(2 ^ (attempt - 1) : Int) * 1000000000]) := by
    intro maxRetries attempt lastErr e sleeps hlt herr hret
    rw [retryLoop]
    rw [if_pos (by omega)]
    rw [herr]
    simp only [hret]
    rw [if_neg (by simp), if_pos hlt]
  have hterm : ∀ (maxRetries attempt : Nat) (lastErr e : List Char) (sleeps : List Int),
      attempt ≤ maxRetries →
      oracle attempt = .err e → isRetryableError e = false →
      retryLoop oracle maxRetries attempt lastErr sleeps =
        ⟨[], [], some e, sleeps, attempt⟩ := by
    intro maxRetries attempt lastErr e sleeps hle herr hret
    rw [retryLoop]
    rw [if_pos hle, herr]
    simp [hret]
  have hexhaust : ∀ (maxRetries : Nat) (lastErr : List Char) (sleeps : List Int),
      retryLoop oracle maxRetries (maxRetries + 1) lastErr sleeps =
        ⟨[], [], some (wrapRetryErr maxRetries lastErr), sleeps, maxRetries⟩ := by
    intro maxRetries lastErr sleeps
    rw [retryLoop]
    rw [if_neg (by omega)]
  refine ⟨?_, ?_, hstep⟩
  · intro e1 e2 e3 h1 h2 h3 r1 r2 r3
    unfold fetchPRBatchWithRetry
    rw [hstep 3 1 [] e1 [] (by omega) h1 r1]
    rw [hstep 3 2 e1 e2 _ (by omega) h2 r2]
    have hlast : retryLoop oracle 3 3 e2 ([1000000000, 2000000000] : List Int) =
        retryLoop oracle 3 4 e3 [1000000000, 2000000000] := by
      rw [retryLoop]
      rw [if_pos (by omega), h3]
      simp only [r3]
      rw [if_neg (by simp), if_neg (by omega)]
    norm_num at hlast ⊢
    rw [hlast]
    exact hexhaust 3 e3 _
  · intro k e hk1 hk3 hprev herr hret
    unfold fetchPRBatchWithRetry
    interval_cases k
    · simpa using hterm 3 1 [] e [] (by omega) herr hret
    · obtain ⟨e1, he1, hr1⟩ := hprev 1 (by omega) (by omega)
      rw [hstep 3 1 [] e1 [] (by omega) he1 hr1]
      have := hterm 3 2 e1 e ([] ++ [(2 ^ (1 - 1) : Int) * 1000000000]) (by omega) herr hret
      norm_num at this ⊢
      rw [this]
      congr 1
    · obtain ⟨e1, he1, hr1⟩ := hprev 1 (by omega) (by omega)
      obtain ⟨e2, he2, hr2⟩ := hprev 2 (by omega) (by omega)
      rw [hstep 3 1 [] e1 [] (by omega) he1 hr1]
      rw [hstep 3 2 e1 e2 _ (by omega) he2 hr2]
      have := hterm 3 3 e2 e
        (([] ++ [(2 ^ (1 - 1) : Int) * 1000000000]) ++ [(2 ^ (2 - 1) : Int) * 1000000000])
        (by omega) herr hret
      norm_num at this ⊢
      rw [this]
      congr 1

/-- Witness for C5 at a concrete oracle. -/
theorem retry_policy_witness :
    fetchPRBatchWithRetry (fun _ => .err "502 bad gateway".data) 3 =
        ⟨[], [], some (wrapRetryErr 3 "502 bad gateway".data),
          [1000000000, 2000000000], 3⟩ ∧
      fetchPRBatchWithRetry (fun _ => .err "auth failed".data) 3 =
        ⟨[], [], some "auth failed".data, [], 1⟩ := by
  constructor
  · exact (retry_policy (fun _ => .err "502 bad gateway".data)).1 _ _ _ rfl rfl rfl
      (by decide) (by decide) (by decide)
  · have h := (retry_policy (fun _ => .err "auth failed".data)).2.1 1 "auth failed".data
      (by omega) (by omega) (fun i h1 h2 => absurd h2 (by omega)) rfl (by decide)
    simpa using h

/-! ### C1: fetcher partial failure -/

theorem fetchLoop_err (env : Nat → Int → List Char → BatchResult) (b : Nat)
    (acc : List PullRequest) (cursor : List Char) (remaining : Int) (e : List Char)
    (hrem : 0 < remaining) (henv : ∀ bs, env b bs cursor = .err e) :
    fetchLoop env b acc cursor remaining = (acc, cursor, some e) := by
  rw [fetchLoop.eq_def, dif_pos hrem, henv]

theorem fetchLoop_ok_full (env : Nat → Int → List Char → BatchResult) (b : Nat)
    (acc : List PullRequest) (cursor : List Char) (remaining : Int)
    (prs : List PullRequest) (c : List Char)
    (hrem : 100 < remaining) (henv : env b 100 cursor = .ok prs c)
    (hlen : prs.length = 100) :
    fetchLoop env b acc cursor remaining =
      fetchLoop env (b + 1) (acc ++ prs) c (remaining - 100) := by
  rw [fetchLoop.eq_def, dif_pos (by omega : (0 : Int) < remaining)]
  rw [if_pos hrem, henv]
  simp only [hlen]
  norm_num

theorem fetchLoop_partial (env : Nat → Int → List Char → BatchResult) (e : List Char) :
    ∀ (j b : Nat) (acc : List PullRequest) (c : Nat → List Char)
      (prss : Nat → List PullRequest) (remaining : Int),
      (∀ i, i < j →
        env (b + i) 100 (c i) = .ok (prss i) (c (i + 1)) ∧ (prss i).length = 100) →
      (∀ bs, env (b + j) bs (c j) = .err e) →
      ((100 * j : Int) < remaining) →
      fetchLoop env b acc (c 0) remaining =
        (acc ++ ((List.range j).map prss).flatten, c j, some e) := by
  intro j
  induction j with
  | zero =>
    intro b acc c prss remaining hok herr hlim
    have h := fetchLoop_err env b acc (c 0) remaining e (by omega)
      (by simpa using herr)
    simpa using h
  | succ n ih =>
    intro b acc c prss remaining hok herr hlim
    obtain ⟨henv0, hlen0⟩ := hok 0 (by omega)
    have hrem : (100 : Int) < remaining := by
      have : (100 : Int) ≤ 100 * (n + 1 : Nat) := by push_cast; nlinarith
      omega
    rw [fetchLoop_ok_full env b acc (c 0) remaining (prss 0) (c 1) hrem
      (by simpa using henv0) hlen0]
    have hrec := ih (b + 1) (acc ++ prss 0) (fun i => c (i + 1))
      (fun i => prss (i + 1)) (remaining - 100)
      (fun i hi => by
        have h := hok (i + 1) (by omega)
        rw [show b + 1 + i = b + (i + 1) by omega]
        exact h)
      (fun bs => by
        rw [show b + 1 + n = b + (n + 1) by omega]
        exact herr bs)
      (by push_cast at hlim ⊢; omega)
    rw [hrec, List.range_succ_eq_map]
    simp [List.map_map, Function.comp_def]

theorem join_length_100 (prss : Nat → List PullRequest) :
    ∀ j : Nat, (∀ i, i < j → (prss i).length = 100) →
      (((List.range j).map prss).flatten).length = 100 * j := by
  intro j
  induction j with
  | zero => simp
  | succ n ih =>
    intro h
    rw [List.range_succ]
    simp only [List.map_append, List.flatten_append, List.length_append]
    rw [ih (fun i hi => h i (by omega))]
    simp [h n (by omega)]
    ring

/-- C1: when the first `j` batches succeed (each full, at 100 records)
and batch `j+1` fails, `FetchNixpkgsPRsWithCursor` returns exactly the
records accumulated from the successful batches (`100 * j` of them),
the cursor returned by the last successful batch, and the non-nil
error; the two-batch instance (batch 1 of 2 succeeds, batch 2 fails)
is the case `j = 1`. -/
theorem fetch_partial_failure (env : Nat → Int → List Char → BatchResult)
    (limit : Int) (c : Nat → List Char) (prss : Nat → List PullRequest)
    (j : Nat) (e : List Char)
    (hok : ∀ i, i < j →
      env (i + 1) 100 (c i) = .ok (prss i) (c (i + 1)) ∧ (prss i).length = 100)
    (herr : ∀ bs, env (j + 1) bs (c j) = .err e)
    (hlim : (100 * j : Int) < limit) :
    fetchNixpkgsPRsWithCursor env limit (c 0) =
        (((List.range j).map prss).flatten, c j, some e) ∧
      (((List.range j).map prss).flatten).length = 100 * j := by
  constructor
  · have h := fetchLoop_partial env e j 1 [] c prss limit
      (fun i hi => by
        have := hok i hi
        rw [show 1 + i = i + 1 by omega]
        exact this)
      (fun bs => by
        rw [show 1 + j = j + 1 by omega]
        exact herr bs)
      hlim
    simpa [fetchNixpkgsPRsWithCursor] using h
  · exact join_length_100 prss j fun i hi => (hok i hi).2

/-- Witness for C1: batch 1 of 2 succeeds with 100 records, batch 2
fails terminally; the accumulated 100 records, the cursor of batch 1
and the error are returned. -/
theorem fetch_partial_failure_witness :
    fetchNixpkgsPRsWithCursor partialFailEnv 150 "c0".data =
      (List.replicate 100 emptyPR, "c1".data, some "gateway 502".data) := by
  have h := fetch_partial_failure partialFailEnv 150 partialFailCursors
    (fun _ => List.replicate 100 emptyPR) 1 "gateway 502".data
    (fun i hi => by
      interval_cases i
      exact ⟨rfl, by simp⟩)
    (fun bs => rfl)
    (by norm_num)
  simpa [partialFailCursors] using h.1

/-! ### C2: deduplication of matches -/

/-- C2 counterexample: the phase-1 package scan has no deduplication
guard, so a PR touching two files of the same `by-name` package
directory yields two matches with the same dependency name `git`. -/
theorem matchPR_duplicate_dependency :
    ¬ List.Pairwise (fun a b => a.Dependency ≠ b.Dependency)
        (matchPR (pkgDeps ["git".data]) twoGitFilesPR).Matches := by
  decide

theorem hasMatch_false_forall (r : MatchResult) (dep : List Char)
    (h : ¬ hasMatch r dep = true) : ∀ m ∈ r.Matches, m.Dependency ≠ dep := by
  intro m hm heq
  rw [hasMatch, List.any_eq_true] at h
  exact h ⟨m, hm, by simp [heq]⟩

theorem fuzzyModuleScan_mem (path : List Char) :
    ∀ (mods : List ModulePath) (r : MatchResult) (m : Match),
      m ∈ (fuzzyModuleScan r path mods).Matches →
      m ∈ r.Matches ∨ m.type = "module".data := by
  intro mods
  induction mods with
  | nil => intro r m hm; exact Or.inl hm
  | cons mod rest ih =>
    intro r m hm
    rw [fuzzyModuleScan] at hm
    split at hm
    · split at hm
      · rw [addMatch_Matches, List.mem_append] at hm
        rcases hm with hm | hm
        · exact Or.inl hm
        · simp at hm
          subst hm
          exact Or.inr rfl
      · exact Or.inl hm
    · exact ih r m hm

theorem phase1File_mem (d : Dependencies) (r : MatchResult) (f : File) (m : Match)
    (hm : m ∈ (phase1File d r f).Matches) :
    m ∈ r.Matches ∨ m.type = "package".data ∨ m.type = "module".data := by
  rw [phase1File] at hm
  split at hm
  · rw [addMatch_Matches, List.mem_append] at hm
    rcases hm with hm | hm
    · exact Or.inl hm
    · simp at hm
      subst hm
      exact Or.inr (Or.inl rfl)
  · split at hm
    · split at hm
      · rw [addMatch_Matches, List.mem_append] at hm
        rcases hm with hm | hm
        · exact Or.inl hm
        · simp at hm
          subst hm
          exact Or.inr (Or.inr rfl)
      · rcases fuzzyModuleScan_mem f.Path d.Modules r m hm with hm | hm
        · exact Or.inl hm
        · exact Or.inr (Or.inr hm)
    · exact Or.inl hm

theorem phase1_fold_mem (d : Dependencies) :
    ∀ (files : List File) (r : MatchResult) (m : Match),
      m ∈ (files.foldl (phase1File d) r).Matches →
      m ∈ r.Matches ∨ m.type = "package".data ∨ m.type = "module".data := by
  intro files
  induction files with
  | nil => intro r m hm; exact Or.inl hm
  | cons f rest ih =>
    intro r m hm
    rw [List.foldl_cons] at hm
    rcases ih (phase1File d r f) m hm with hm' | hm'
    · exact phase1File_mem d r f m hm'
    · exact Or.inr hm'

theorem noTitle_pairwise (ms : List Match)
    (h : ∀ m ∈ ms, m.type ≠ "title".data) :
    List.Pairwise dedupWithTitles ms := by
  induction ms with
  | nil => exact List.Pairwise.nil
  | cons m rest ih =>
    refine List.Pairwise.cons ?_ (ih fun x hx => h x (List.mem_cons_of_mem m hx))
    intro b hb
    exact ⟨fun ht => absurd ht (h m (List.mem_cons_self m rest)),
      fun ht => absurd ht (h b (List.mem_cons_of_mem m hb))⟩

theorem phase2Pkg_pairwise (titleLower : List Char) (r : MatchResult) (pkg : Package)
    (h : List.Pairwise dedupWithTitles r.Matches) :
    List.Pairwise dedupWithTitles (phase2Pkg titleLower r pkg).Matches := by
  rw [phase2Pkg]
  split
  · split
    · rename_i hc
      rw [addMatch_Matches, List.pairwise_append]
      refine ⟨h, by simp, ?_⟩
      intro a ha b hb
      simp only [List.mem_singleton] at hb
      subst hb
      have hne : a.Dependency ≠ pkg.Name := hasMatch_false_forall r pkg.Name hc a ha
      exact ⟨fun _ => hne, fun _ => hne⟩
    · exact h
  · exact h

theorem phase2_fold_pairwise (titleLower : List Char) :
    ∀ (pkgs : List Package) (r : MatchResult),
      List.Pairwise dedupWithTitles r.Matches →
      List.Pairwise dedupWithTitles ((pkgs.foldl (phase2Pkg titleLower) r).Matches) := by
  intro pkgs
  induction pkgs with
  | nil => intro r h; exact h
  | cons pkg rest ih =>
    intro r h
    rw [List.foldl_cons]
    exact ih (phase2Pkg titleLower r pkg) (phase2Pkg_pairwise titleLower r pkg h)

/-- C2 (amended): in every `matchPR` result, a title match's dependency
name differs from every other match's dependency name — the title scan
never re-adds a matched dependency; file-path matches, however, carry no
such guard (see the counterexample) and may repeat a name. -/
theorem matchPR_title_dedup (d : Dependencies) (pr : PullRequest) :
    List.Pairwise dedupWithTitles (matchPR d pr).Matches := by
  show List.Pairwise dedupWithTitles
    ((d.Packages.foldl (phase2Pkg (goToLower pr.Title))
      (pr.Files.foldl (phase1File d) ⟨pr, 0, [], 0⟩)).Matches)
  apply phase2_fold_pairwise
  apply noTitle_pairwise
  intro m hm
  rcases phase1_fold_mem d pr.Files ⟨pr, 0, [], 0⟩ m hm with h | h | h
  · simp at h
  · rw [h]
    decide
  · rw [h]
    decide

/-! ### C7: word-boundary title matching -/

theorem char_le_iff (a b : Char) : a ≤ b ↔ a.toNat ≤ b.toNat := by
  rw [Char.le_def]
  exact Iff.rfl

theorem toNat_ofNat_valid (n : Nat) (h : n < 55296) : (Char.ofNat n).toNat = n := by
  rw [Char.ofNat, dif_pos (Or.inl h)]
  simp [Char.ofNatAux, Char.toNat, UInt32.toNat]

theorem isWordChar_goToLowerChar (c : Char) : isWordChar (goToLowerChar c) = isWordChar c := by
  unfold goToLowerChar
  split
  · rename_i h
    obtain ⟨h1, h2⟩ := h
    rw [char_le_iff] at h1 h2
    have hA : ('A' : Char).toNat = 65 := rfl
    have hZ : ('Z' : Char).toNat = 90 := rfl
    rw [hA] at h1; rw [hZ] at h2
    have hofn : (Char.ofNat (c.toNat + 32)).toNat = c.toNat + 32 :=
      toNat_ofNat_valid _ (by omega)
    have hlhs : isWordChar (Char.ofNat (c.toNat + 32)) = true := by
      unfold isWordChar
      have ha : 'a' ≤ Char.ofNat (c.toNat + 32) := by
        rw [char_le_iff, hofn]; show 97 ≤ _; omega
      have hz : Char.ofNat (c.toNat + 32) ≤ 'z' := by
        rw [char_le_iff, hofn]; show _ ≤ 122; omega
      simp [ha, hz]
    have hrhs : isWordChar c = true := by
      unfold isWordChar
      have h1' : 'A' ≤ c := by rw [char_le_iff, hA]; exact h1
      have h2' : c ≤ 'Z' := by rw [char_le_iff, hZ]; exact h2
      simp [h1', h2']
    rw [hlhs, hrhs]
  · rfl

theorem goToLowerChar_idem (c : Char) : goToLowerChar (goToLowerChar c) = goToLowerChar c := by
  unfold goToLowerChar
  split
  · rename_i h
    obtain ⟨h1, h2⟩ := h
    rw [char_le_iff] at h1 h2
    have hA : ('A' : Char).toNat = 65 := rfl
    have hZ : ('Z' : Char).toNat = 90 := rfl
    rw [hA] at h1; rw [hZ] at h2
    have hofn : (Char.ofNat (c.toNat + 32)).toNat = c.toNat + 32 :=
      toNat_ofNat_valid _ (by omega)
    rw [if_neg]
    intro ⟨ha, hb⟩
    rw [char_le_iff, hofn] at hb
    have : ('Z' : Char).toNat = 90 := rfl
    omega
  · rfl

theorem ciPrefix_iff (pkg : List Char) :
    ∀ text : List Char,
      ciPrefix pkg text = true ↔
        ∃ mid post, text = mid ++ post ∧ mid.map goToLowerChar = pkg.map goToLowerChar := by
  induction pkg with
  | nil =>
    intro text
    simp only [ciPrefix, List.map_nil]
    constructor
    · intro _
      exact ⟨[], text, rfl, rfl⟩
    · intro _
      trivial
  | cons a as ih =>
    intro text
    cases text with
    | nil =>
      simp only [ciPrefix, List.map_cons]
      constructor
      · intro h
        exact absurd h (by simp)
      · rintro ⟨mid, post, heq, hmap⟩
        have : mid = [] := by
          cases mid with
          | nil => rfl
          | cons x xs => simp at heq
        subst this
        simp at hmap
    | cons b bs =>
      simp only [ciPrefix, Bool.and_eq_true]
      constructor
      · rintro ⟨h1, h2⟩
        obtain ⟨mid, post, heq, hmap⟩ := (ih bs).mp h2
        refine ⟨b :: mid, post, by rw [heq]; rfl, ?_⟩
        simp only [List.map_cons, hmap]
        have hba : goToLowerChar b = goToLowerChar a := by
          have h1' := h1
          unfold ciEqChar at h1'
          have : goToLowerChar a = goToLowerChar b := by simpa [beq_iff_eq] using h1'
          exact this.symm
        rw [hba]
      · rintro ⟨mid, post, heq, hmap⟩
        cases mid with
        | nil => simp at hmap
        | cons x xs =>
          simp only [List.cons_append, List.cons.injEq] at heq
          obtain ⟨hbx, hbs⟩ := heq
          subst hbx
          simp only [List.map_cons, List.cons.injEq] at hmap
          obtain ⟨hxa, hxs⟩ := hmap
          refine ⟨?_, (ih bs).mpr ⟨xs, post, hbs, hxs⟩⟩
          unfold ciEqChar
          simp [beq_iff_eq, hxa]

theorem isWordOpt_map_lower_eq {xs ys : List Char}
    (h : xs.map goToLowerChar = ys.map goToLowerChar) :
    isWordOpt xs.getLast? = isWordOpt ys.getLast? ∧
      isWordOpt xs.head? = isWordOpt ys.head? := by
  have hlast : xs.getLast?.map goToLowerChar = ys.getLast?.map goToLowerChar := by
    rw [← List.getLast?_map, ← List.getLast?_map, h]
  have hhead : xs.head?.map goToLowerChar = ys.head?.map goToLowerChar := by
    rw [← List.head?_map, ← List.head?_map, h]
  constructor
  · cases hx : xs.getLast? with
    | none =>
      cases hy : ys.getLast? with
      | none => rfl
      | some b => rw [hx, hy] at hlast; exact Option.noConfusion hlast
    | some a =>
      cases hy : ys.getLast? with
      | none => rw [hx, hy] at hlast; exact Option.noConfusion hlast
      | some b =>
        rw [hx, hy] at hlast
        have hab : goToLowerChar a = goToLowerChar b := by
          simpa using hlast
        show isWordChar a = isWordChar b
        rw [← isWordChar_goToLowerChar a, ← isWordChar_goToLowerChar b, hab]
  · cases hx : xs.head? with
    | none =>
      cases hy : ys.head? with
      | none => rfl
      | some b => rw [hx, hy] at hhead; exact Option.noConfusion hhead
    | some a =>
      cases hy : ys.head? with
      | none => rw [hx, hy] at hhead; exact Option.noConfusion hhead
      | some b =>
        rw [hx, hy] at hhead
        have hab : goToLowerChar a = goToLowerChar b := by
          simpa using hhead
        show isWordChar a = isWordChar b
        rw [← isWordChar_goToLowerChar a, ← isWordChar_goToLowerChar b, hab]

theorem wbHere_iff (pkg : List Char) (hpkg : pkg ≠ []) (prev : Option Char)
    (text : List Char) :
    wbHere pkg prev text = true ↔
      ∃ mid post, text = mid ++ post ∧
        mid.map goToLowerChar = pkg.map goToLowerChar ∧
        isWordOpt prev ≠ isWordOpt mid.head? ∧
        isWordOpt mid.getLast? ≠ isWordOpt post.head? := by
  unfold wbHere
  rw [Bool.and_eq_true, Bool.and_eq_true]
  constructor
  · rintro ⟨⟨hb1, hp⟩, hb2⟩
    obtain ⟨mid, post, heq, hmap⟩ := (ciPrefix_iff pkg text).mp hp
    have hlen : mid.length = pkg.length := by
      have := congrArg List.length hmap
      simpa using this
    have hmidne : mid ≠ [] := by
      intro h
      subst h
      simp at hlen
      exact hpkg (List.length_eq_zero.mp hlen.symm)
    have hdrop : text.drop pkg.length = post := by
      rw [heq, ← hlen, List.drop_left]
    have hheads : (mid ++ post).head? = mid.head? := by
      cases mid with
      | nil => exact absurd rfl hmidne
      | cons x xs => rfl
    obtain ⟨hlast, hhead⟩ := isWordOpt_map_lower_eq hmap
    refine ⟨mid, post, heq, hmap, ?_, ?_⟩
    · rw [boundary, bne_iff_ne] at hb1
      rw [heq, hheads] at hb1
      exact hb1
    · rw [boundary, bne_iff_ne] at hb2
      rw [hdrop] at hb2
      rw [hlast]
      exact hb2
  · rintro ⟨mid, post, heq, hmap, h1, h2⟩
    have hlen : mid.length = pkg.length := by
      have := congrArg List.length hmap
      simpa using this
    have hmidne : mid ≠ [] := by
      intro h
      subst h
      simp at hlen
      exact hpkg (List.length_eq_zero.mp hlen.symm)
    have hdrop : text.drop pkg.length = post := by
      rw [heq, ← hlen, List.drop_left]
    have hheads : (mid ++ post).head? = mid.head? := by
      cases mid with
      | nil => exact absurd rfl hmidne
      | cons x xs => rfl
    obtain ⟨hlast, hhead⟩ := isWordOpt_map_lower_eq hmap
    refine ⟨⟨?_, (ciPrefix_iff pkg text).mpr ⟨mid, post, heq, hmap⟩⟩, ?_⟩
    · rw [boundary, bne_iff_ne]
      rw [heq, hheads]
      exact h1
    · rw [boundary, bne_iff_ne, hdrop]
      rw [← hlast]
      exact h2

theorem wbScan_iff (pkg : List Char) (hpkg : pkg ≠ []) :
    ∀ (rest pre : List Char),
      wbScan pkg pre.getLast? rest = true ↔
        ∃ pre2 mid post, rest = pre2 ++ mid ++ post ∧
          mid.map goToLowerChar = pkg.map goToLowerChar ∧
          isWordOpt (pre ++ pre2).getLast? ≠ isWordOpt mid.head? ∧
          isWordOpt mid.getLast? ≠ isWordOpt post.head? := by
  intro rest
  induction rest with
  | nil =>
    intro pre
    constructor
    · intro h
      exact absurd h (by simp [wbScan])
    · rintro ⟨pre2, mid, post, heq, hmap, _, _⟩
      have hnil := heq.symm
      rw [List.append_eq_nil, List.append_eq_nil] at hnil
      obtain ⟨⟨_, hmid⟩, _⟩ := hnil
      subst hmid
      simp only [List.map_nil] at hmap
      exact absurd (List.map_eq_nil_iff.mp hmap.symm) hpkg
  | cons c rest' ih =>
    intro pre
    rw [wbScan, Bool.or_eq_true]
    constructor
    · rintro (hh | hs)
      · obtain ⟨mid, post, heq, hmap, h1, h2⟩ :=
          (wbHere_iff pkg hpkg pre.getLast? (c :: rest')).mp hh
        exact ⟨[], mid, post, by simpa using heq, hmap, by simpa using h1, h2⟩
      · have hlast : (pre ++ [c]).getLast? = some c := by
          simp
        obtain ⟨pre2, mid, post, heq, hmap, h1, h2⟩ :=
          (ih (pre ++ [c])).mp (by rw [hlast]; exact hs)
        refine ⟨c :: pre2, mid, post, by rw [heq]; rfl, hmap, ?_, h2⟩
        rwa [List.append_assoc] at h1
    · rintro ⟨pre2, mid, post, heq, hmap, h1, h2⟩
      cases pre2 with
      | nil =>
        left
        refine (wbHere_iff pkg hpkg pre.getLast? (c :: rest')).mpr
          ⟨mid, post, by simpa using heq, hmap, by simpa using h1, h2⟩
      | cons c2 pre2' =>
        right
        simp only [List.cons_append, List.cons.injEq] at heq
        obtain ⟨hc, hrest⟩ := heq
        subst hc
        have hlast : (pre ++ [c]).getLast? = some c := by simp
        rw [show (some c : Option Char) = (pre ++ [c]).getLast? from hlast.symm]
        refine (ih (pre ++ [c])).mpr ⟨pre2', mid, post, hrest, hmap, ?_, h2⟩
        rwa [List.append_cons] at h1

/-- C7: phase-2 title matching — a name of fewer than 3 characters
matches exactly when the tokenization of the title (split on every
character that is not a lowercase letter, digit, hyphen or underscore)
contains the lowered name as an exact token; a name of length ≥ 3 with
no hyphen is suppressed whenever the title contains the name followed by
a hyphen, and otherwise (hyphenated name, or no such occurrence) matches
exactly when the title contains a case-insensitive word-boundary
occurrence of the name; the `oc` / `openssh` / `openssh-client`
examples behave as the spec states. -/
theorem word_boundary_title_matching :
    (∀ name text : List Char, name.length < 3 →
        (phase2Matched text name = true ↔
          goToLower name ∈ goFields isTokenChar text)) ∧
      (∀ name text : List Char, 3 ≤ name.length →
        goContains (goToLower name) ['-'] = false →
        goContains (goToLower text) (goToLower (goToLower name) ++ ['-']) = true →
        phase2Matched text name = false) ∧
      (∀ name text : List Char, 3 ≤ name.length →
        (goContains (goToLower name) ['-'] = true ∨
          goContains (goToLower text) (goToLower (goToLower name) ++ ['-']) = false) →
        (phase2Matched text name = true ↔ wordBoundaryMatch text (goToLower name))) ∧
      (matchPR (pkgDeps ["oc".data]) (titlePR "ocaml update".data)).Matches = [] ∧
      (matchPR (pkgDeps ["oc".data])
          (titlePR "oc: update to 1.2.3".data)).Matches.map Match.Dependency =
        ["oc".data] ∧
      (matchPR (pkgDeps ["openssh".data])
          (titlePR "openssh-client update".data)).Matches = [] ∧
      (matchPR (pkgDeps ["openssh-client".data])
          (titlePR "openssh-client update".data)).Matches.map Match.Dependency =
        ["openssh-client".data] := by
  refine ⟨?_, ?_, ?_, by decide, by decide, by decide, by decide⟩
  · intro name text hlen
    rw [phase2Matched]
    simp only [if_pos hlen]
    rw [isExactWordMatch, List.any_eq_true]
    constructor
    · rintro ⟨tok, htok, heq⟩
      rwa [← eq_of_beq heq]
    · intro h
      exact ⟨goToLower name, h, beq_self_eq_true _⟩
  · intro name text hlen h1 h2
    rw [phase2Matched]
    simp only [if_neg (by omega : ¬ name.length < 3)]
    rw [matchesWithWordBoundary, if_pos (by simp [h1]), if_pos h2]
  · intro name text hlen hcase
    have hpkg : goToLower name ≠ [] := by
      intro h
      have hl := congrArg List.length h
      rw [goToLower, List.length_map, List.length_nil] at hl
      omega
    have hwb : phase2Matched text name = wbScan (goToLower name) none text := by
      rw [phase2Matched]
      simp only [if_neg (by omega : ¬ name.length < 3)]
      rw [matchesWithWordBoundary]
      rcases hcase with hcase | hcase
      · rw [if_neg (by simp [hcase])]
      · by_cases hh : goContains (goToLower name) ['-'] = true
        · rw [if_neg (by simp [hh])]
        · rw [if_pos hh, if_neg (by simp [hcase])]
    rw [hwb]
    rw [show (none : Option Char) = ([] : List Char).getLast? from rfl]
    rw [wbScan_iff (goToLower name) hpkg text []]
    unfold wordBoundaryMatch
    constructor
    · rintro ⟨pre2, mid, post, heq, hmap, h1, h2⟩
      exact ⟨pre2, mid, post, heq, hmap, by simpa using h1, h2⟩
    · rintro ⟨pre, mid, post, heq, hmap, h1, h2⟩
      exact ⟨pre, mid, post, heq, hmap, by simpa using h1, h2⟩

/-- Witness for C7 at concrete names and titles. -/
theorem word_boundary_title_matching_witness :
    (phase2Matched "oc: update to 1.2.3".data "oc".data = true ↔
        goToLower "oc".data ∈ goFields isTokenChar "oc: update to 1.2.3".data) ∧
      phase2Matched "openssh-client update".data "openssh".data = false ∧
      (phase2Matched "openssh-client update".data "openssh-client".data = true ↔
        wordBoundaryMatch "openssh-client update".data
          (goToLower "openssh-client".data)) := by
  refine ⟨word_boundary_title_matching.1 "oc".data "oc: update to 1.2.3".data (by decide),
    word_boundary_title_matching.2.1 "openssh".data "openssh-client update".data
      (by decide) (by decide) (by decide),
    word_boundary_title_matching.2.2.1 "openssh-client".data
      "openssh-client update".data (by decide) (Or.inl (by decide))⟩

/-- Witness for C8 at a concrete record list. -/
theorem matchAll_filters_empty_witness :
    matchAll (pkgDeps ["git".data]) [twoGitFilesPR, emptyPR] =
        (([twoGitFilesPR, emptyPR].map (matchPR (pkgDeps ["git".data]))).filter
          fun r => r.Matches.length > 0) ∧
      (matchPR (pkgDeps ["git".data]) emptyPR).PR = emptyPR := by
  exact ⟨(matchAll_filters_empty (pkgDeps ["git".data]) [twoGitFilesPR, emptyPR]).1,
    (matchAll_filters_empty (pkgDeps ["git".data]) [twoGitFilesPR, emptyPR]).2
      emptyPR (by decide)⟩

end Spec2Proof

